import Mathlib

/-!
Verification development for the TTdataVizzer fan-out/aggregation endpoint.

The definitions below are a shallow embedding of the two source files
`src/app/api/analyseLikedVids/route.js` and `src/utils/apiAuth.js`:

* a parsed JSON body is modelled as `JsObject`, an ordered list of
  key/value pairs (JS objects have distinct keys and `Object.keys`
  enumerates own properties in insertion order);
* `checkKey`, `validateFormatting`, `validateContent`, `processBatch`
  and `mapOccurences` are direct translations of the functions with the
  same names;
* the `Promise.all(batches.map(batch => compileHashtags(batch)))` join
  is modelled by `dispatchAll`, which succeeds with the list of all
  per-batch worker results (in batch order) or fails with the first
  error, matching the all-or-nothing semantics of `Promise.all`
  together with `compileHashtags` rethrowing;
* the `PUT` handler is modelled as a pure function of the expected API
  key (`process.env.API_KEY`), the external worker, and the parsed
  request body, returning a `Response` of status code and body.
-/

/-- A JSON value, as parsed from a request body. -/
inductive JsValue : Type
  | str (s : String)
  | num (n : Int)
  | bool (b : Bool)
  | null
  | arr (elems : List JsValue)

/-- A JS object: its own properties in insertion order, distinct keys. -/
abbrev JsObject := List (String × JsValue)

/-- Property lookup `request[k]`: `some v` when the key is present,
`none` standing for `undefined`. -/
def jsGet (request : JsObject) (k : String) : Option JsValue :=
  (request.find? fun p => p.1 == k).map (fun p => p.2)

/-- The whitespace characters trimmed by the JS `ToNumber` conversion
of a string (StrWhiteSpace): ASCII blanks plus no-break space, BOM and
the line and paragraph separators. -/
def isJsSpace (c : Char) : Bool :=
  c = ' ' || c = '\t' || c = '\n' || c = '\r' ||
  c = '\u000B' || c = '\u000C' || c = '\u00A0' ||
  c = '\uFEFF' || c = '\u2028' || c = '\u2029'

/-- The value of a decimal digit character, `none` otherwise. -/
def decDigit (c : Char) : Option Nat :=
  if 48 ≤ c.toNat ∧ c.toNat ≤ 57 then some (c.toNat - 48) else none

/-- The value of a hexadecimal digit character, `none` otherwise. -/
def hexDigit (c : Char) : Option Nat :=
  if 48 ≤ c.toNat ∧ c.toNat ≤ 57 then some (c.toNat - 48)
  else if 97 ≤ c.toNat ∧ c.toNat ≤ 102 then some (c.toNat - 87)
  else if 65 ≤ c.toNat ∧ c.toNat ≤ 70 then some (c.toNat - 55)
  else none

/-- The value of an octal digit character, `none` otherwise. -/
def octDigit (c : Char) : Option Nat :=
  if 48 ≤ c.toNat ∧ c.toNat ≤ 55 then some (c.toNat - 48) else none

/-- The value of a binary digit character, `none` otherwise. -/
def binDigit (c : Char) : Option Nat :=
  if 48 ≤ c.toNat ∧ c.toNat ≤ 49 then some (c.toNat - 48) else none

/-- Reads a non-empty run of digits in the given base, `none` on an
empty run or a non-digit. -/
def readDigits (f : Char → Option Nat) (base : Nat) (cs : List Char) :
    Option Nat :=
  if cs.isEmpty then none
  else cs.foldl (fun acc c =>
    match acc, f c with
    | some a, some d => some (a * base + d)
    | _, _ => none) (some 0)

/-- A decimal exponent with optional sign, as in `e+10`. -/
def parseSignedDigits (cs : List Char) : Option Int :=
  match cs with
  | '+' :: ds => (readDigits decDigit 10 ds).map Int.ofNat
  | '-' :: ds => (readDigits decDigit 10 ds).map fun n => -(Int.ofNat n)
  | ds => (readDigits decDigit 10 ds).map Int.ofNat

/-- The exponent part of a decimal numeral: absent means 0, an `e` or
`E` must be followed by signed digits. -/
def expValOf (rest : List Char) : Option Int :=
  match rest with
  | [] => some 0
  | _ :: es => parseSignedDigits es

/-- The exact value of `m * 10 ^ e`, when that value is an integer. -/
def scaleByTenPow (m : Nat) (e : Int) : Option Nat :=
  if 0 ≤ e then some (m * 10 ^ e.toNat)
  else
    let d := 10 ^ (-e).toNat
    if m % d = 0 then some (m / d) else none

/-- An unsigned decimal numeral `digits [. digits] [(e|E) exponent]`
(at least one digit overall), evaluated exactly; `none` when the
numeral is ill-formed or its value is not an integer. -/
def parseDecNumeral (cs : List Char) : Option Nat :=
  let mant := cs.takeWhile fun c => c != 'e' && c != 'E'
  let rest := cs.dropWhile fun c => c != 'e' && c != 'E'
  let ip := mant.takeWhile fun c => c != '.'
  let fp := (mant.dropWhile fun c => c != '.').drop 1
  if fp.any fun c => c == '.' then none
  else
    match readDigits decDigit 10 (ip ++ fp), expValOf rest with
    | some m, some e => scaleByTenPow m (e - (fp.length : Int))
    | _, _ => none

/-- JS `ToNumber` applied to a string, restricted to integer results:
`some n` exactly when the trimmed string is a numeral denoting the
integer `n` (empty string denoting 0; signed decimal with optional
fraction and exponent whenever the exact value is integral; or a hex,
octal or binary literal); `none` when the string is not numeric (NaN),
or denotes a non-integer or an infinity — values that compare equal to
no integer payload.  Rounding to double precision is not modelled,
matching the idealised integer payloads of `JsValue.num`. -/
def jsStrToNumber (y : String) : Option Int :=
  let cs := ((y.data.dropWhile isJsSpace).reverse.dropWhile isJsSpace).reverse
  match cs with
  | [] => some 0
  | '0' :: 'x' :: ds => (readDigits hexDigit 16 ds).map Int.ofNat
  | '0' :: 'X' :: ds => (readDigits hexDigit 16 ds).map Int.ofNat
  | '0' :: 'o' :: ds => (readDigits octDigit 8 ds).map Int.ofNat
  | '0' :: 'O' :: ds => (readDigits octDigit 8 ds).map Int.ofNat
  | '0' :: 'b' :: ds => (readDigits binDigit 2 ds).map Int.ofNat
  | '0' :: 'B' :: ds => (readDigits binDigit 2 ds).map Int.ofNat
  | '+' :: ds => (parseDecNumeral ds).map Int.ofNat
  | '-' :: ds => (parseDecNumeral ds).map fun n => -(Int.ofNat n)
  | ds => (parseDecNumeral ds).map Int.ofNat

mutual
/-- `String(v)` as produced inside `Array.prototype.toString`: strings
verbatim, integers in decimal, booleans as their keywords, null
rendered empty (as array elements are), arrays joined recursively. -/
def jsToString : JsValue → String
  | JsValue.str s => s
  | JsValue.num n => toString n
  | JsValue.bool b => if b then "true" else "false"
  | JsValue.null => ""
  | JsValue.arr l => jsToStringList l

/-- `Array.prototype.toString`: elements converted and joined with
commas. -/
def jsToStringList : List JsValue → String
  | [] => ""
  | [v] => jsToString v
  | v :: vs => jsToString v ++ "," ++ jsToStringList vs
end

/-- The ECMA loose equality `v == y` of a payload value against the
expected key string `y` on this JSON fragment: a string compares as a
string; an array is converted to a primitive by its default
`toString` (elements joined by commas) and the resulting string
compared; a number or boolean compares numerically against
`ToNumber(y)`; null is loosely equal only to undefined, never to a
string. -/
def jsLooseEqStr (v : JsValue) (y : String) : Bool :=
  match v with
  | JsValue.str s => s == y
  | JsValue.arr l => jsToStringList l == y
  | JsValue.num n => jsStrToNumber y == some n
  | JsValue.bool b => jsStrToNumber y == some (if b then 1 else 0)
  | JsValue.null => false

/-- `src/utils/apiAuth.js` `checkKey`: rejects unless the first
enumerated key is `api_key` (the source tests `keys.length == 0` and
compares `keys[0]` against the literal key name) and the `api_key`
property compares loosely equal (the loose `!=` of the source) to the
expected key.  The expected key `process.env.API_KEY` is modelled as a
configured string. -/
def checkKey (expected : String) (request : JsObject) : Bool :=
  match request with
  | [] => false
  | (k, _) :: _ =>
    if k == "api_key" then
      match jsGet request "api_key" with
      | some v => jsLooseEqStr v expected
      | none => false
    else false

/-- `validateFormatting`: rejects unless `keys.length` is exactly 2 and
`keys[1]` is the literal `urls`; then the `urls` property must be an
array whose elements are all strings. -/
def validateFormatting (request : JsObject) : Bool :=
  let keys := request.map Prod.fst
  if keys.length == 2 && keys[1]? == some "urls" then
    match jsGet request "urls" with
    | some (JsValue.arr l) =>
      l.all fun v =>
        match v with
        | JsValue.str _ => true
        | _ => false
    | _ => false
  else false

/-- The literal TikTok share-link start required of every url. -/
def tiktokPre : String := "https://www.tiktokv.com/share/video/"

/-- Models `String.prototype.startsWith`: byte-for-byte front match. -/
def jsStartsWith (s pre : String) : Bool :=
  pre.data.isPrefixOf s.data

/-- `validateContent`: every element of the `urls` array must start
with the TikTok share-link literal.  In the source this runs only after
`validateFormatting` has accepted, so `urls` is an array of strings;
the other cases of the match are unreachable from `PUT`. -/
def validateContent (request : JsObject) : Bool :=
  match jsGet request "urls" with
  | some (JsValue.arr l) =>
    l.all fun v =>
      match v with
      | JsValue.str s => jsStartsWith s tiktokPre
      | _ => false
  | _ => false

/-- The strings of the `urls` array (after validation every element is
a string, so `filterMap` keeps the whole array). -/
def getUrls (request : JsObject) : List String :=
  match jsGet request "urls" with
  | some (JsValue.arr l) =>
    l.filterMap fun v =>
      match v with
      | JsValue.str s => some s
      | _ => none
  | _ => []

/-- `Math.ceil(urls.length / 10)`. -/
def batchSizeOf (n : Nat) : Nat := (n + 9) / 10

/-- The loop of `processBatch`:
`for (let i = 0; i < urls.length; i += batchSize) push(urls.slice(i, i + batchSize))`,
made total with an explicit iteration budget `fuel`. -/
def sliceLoop (urls : List String) (batchSize : Nat) : Nat → Nat → List (List String)
  | 0, _ => []
  | fuel + 1, i =>
    if i < urls.length then
      ((urls.drop i).take batchSize) :: sliceLoop urls batchSize fuel (i + batchSize)
    else []

/-- `processBatch`: chop the url list into slices of
`batchSize = Math.ceil(length / 10)`.  A budget of `urls.length`
iterations always suffices (see `processBatch_terminates`); each emitted
batch is wrapped as `{ urls: subArray }` in the source, modelled here as
the bare slice. -/
def processBatch (urls : List String) : List (List String) :=
  sliceLoop urls (batchSizeOf urls.length) urls.length 0

/-- The shape of one external-worker result, `{ hashtags, creators }`
(the lambda returns one such object per invocation, i.e. per batch). -/
structure PostResult where
  hashtags : List String
  creators : List String
deriving DecidableEq

/-- `compileHashtags`: calls the worker and passes the result through,
rethrowing any error to the caller. -/
def compileHashtags (worker : List String → Except String PostResult)
    (batch : List String) : Except String PostResult :=
  worker batch

/-- `Promise.all(batches.map(batch => compileHashtags(batch)))`: all
results in batch order, or the failure of any batch fails the join. -/
def dispatchAll (worker : List String → Except String PostResult) :
    List (List String) → Except String (List PostResult)
  | [] => Except.ok []
  | b :: bs =>
    match compileHashtags worker b with
    | Except.error e => Except.error e
    | Except.ok r =>
      match dispatchAll worker bs with
      | Except.error e => Except.error e
      | Except.ok rs => Except.ok (r :: rs)

/-- One `Map` increment of `mapOccurences`: `set(k, get(k) + 1)` when
the key is present (updating it in place, keeping its position), else
`set(k, 1)` which appends the new key at the end (JS `Map` preserves
insertion order). -/
def bump (counts : List (String × Nat)) (k : String) : List (String × Nat) :=
  if counts.any fun p => p.1 == k then
    counts.map fun p => if p.1 == k then (p.1, p.2 + 1) else p
  else counts ++ [(k, 1)]

/-- One inner `for ... of` loop of `mapOccurences`: fold `bump` over a
result entry field. -/
def countAll (counts : List (String × Nat)) (ks : List String) :
    List (String × Nat) :=
  ks.foldl bump counts

/-- One iteration of the outer `for (const entry of data)` loop: count
the hashtags of the entry into the hashtag map and its creators into the
creator map. -/
def mapStep (acc : List (String × Nat) × List (String × Nat))
    (entry : PostResult) : List (String × Nat) × List (String × Nat) :=
  (countAll acc.1 entry.hashtags, countAll acc.2 entry.creators)

/-- The `hashtagCounts` map after the counting loops. -/
def tagTable (data : List PostResult) : List (String × Nat) :=
  (data.foldl mapStep ([], [])).1

/-- The `creatorCounts` map after the counting loops. -/
def creatorTable (data : List PostResult) : List (String × Nat) :=
  (data.foldl mapStep ([], [])).2

/-- `.sort((a, b) => b[1] - a[1])`: stable sort by count descending
(`Array.prototype.sort` is stable, and a stable sort is determined by
its comparator, so the stable insertion sort below is extensionally the
JS sort). -/
def sortDesc (l : List (String × Nat)) : List (String × Nat) :=
  l.insertionSort fun a b => b.2 ≤ a.2

/-- `mapOccurences`: count occurrences per entry field, sort each table
by count descending, and return the top five of each as
`[top5Hashtags, top5Creators]`. -/
def mapOccurences (data : List PostResult) :
    List (String × Nat) × List (String × Nat) :=
  ((sortDesc (tagTable data)).take 5, (sortDesc (creatorTable data)).take 5)

/-- The body of a `Response`; the message constructors stand for the
exact literal strings of the source, `results` for
`JSON.stringify([top5Hashtags, top5Creators])`. -/
inductive Body : Type
  | unauthorizedAccessMessage
  | incorrectFormattingMessage
  | faultyContentMessage
  | failedToGetHashtags
  | results (tags creators : List (String × Nat))
deriving DecidableEq

/-- An HTTP response: status code and body. -/
structure Response where
  status : Nat
  body : Body
deriving DecidableEq

/-- The `PUT` handler: key check, format check, content check (each
failing with a distinct 400), then batch, dispatch concurrently, and
aggregate; any rejection of the `Promise.all` join is caught by the
surrounding `try` and answered with a 500 and no data. -/
def PUT (expected : String) (worker : List String → Except String PostResult)
    (request : JsObject) : Response :=
  if checkKey expected request then
    if validateFormatting request then
      if validateContent request then
        match dispatchAll worker (processBatch (getUrls request)) with
        | Except.error _ => ⟨500, Body.failedToGetHashtags⟩
        | Except.ok results =>
          ⟨200, Body.results (mapOccurences results).1 (mapOccurences results).2⟩
      else ⟨400, Body.faultyContentMessage⟩
    else ⟨400, Body.incorrectFormattingMessage⟩
  else ⟨400, Body.unauthorizedAccessMessage⟩

/-! ## Concrete inputs used in counterexamples and witnesses -/

/-- A fixed list of eleven urls, on which the claimed batch count
`min(n, 10) = 10` fails: `Math.ceil(11 / 10) = 2`, so the loop emits
only six slices. -/
def urls11 : List String :=
  ["u1", "u2", "u3", "u4", "u5", "u6", "u7", "u8", "u9", "u10", "u11"]

/-- A single worker result carrying six distinct hashtags. -/
def sixTagResult : PostResult :=
  { hashtags := ["a", "b", "c", "d", "e", "f"], creators := [] }

/-- A one-element result sequence whose tag sets are trivially pairwise
disjoint, with six distinct tags in total. -/
def sixTagData : List PostResult := [sixTagResult]

/-- Worker results used for the fold-order witnesses. -/
def resultB : PostResult := { hashtags := ["a"], creators := ["c1"] }

def resultC : PostResult := { hashtags := ["a", "b"], creators := ["c2"] }

/-- A well-formed TikTok share url. -/
def url1 : String := "https://www.tiktokv.com/share/video/1"

/-- A worker that always succeeds with an empty result. -/
def okWorker : List String → Except String PostResult :=
  fun _ => Except.ok { hashtags := [], creators := [] }

/-- A worker that always fails. -/
def failWorker : List String → Except String PostResult :=
  fun _ => Except.error "boom"

/-- A payload holding the correct key and well-formed urls, but with
the `urls` property enumerated before `api_key`. -/
def swappedReq : JsObject :=
  [("urls", JsValue.arr [JsValue.str url1]), ("api_key", JsValue.str "secret")]

/-- A payload with the correct key first and one well-formed url. -/
def okReq : JsObject :=
  [("api_key", JsValue.str "secret"), ("urls", JsValue.arr [JsValue.str url1])]

/-! ## Partitioner lemmas -/

theorem batchSizeOf_pos {n : Nat} (h : 0 < n) : 1 ≤ batchSizeOf n := by
  unfold batchSizeOf
  rw [Nat.le_div_iff_mul_le (by norm_num)]
  omega

theorem batchSizeOf_mul_ten {n : Nat} : n ≤ 10 * batchSizeOf n := by
  unfold batchSizeOf
  have h1 := Nat.div_add_mod (n + 9) 10
  have h2 : (n + 9) % 10 < 10 := Nat.mod_lt _ (by norm_num)
  omega

theorem sliceLoop_eq_nil {urls : List String} {bs i : Nat} (fuel : Nat)
    (h : urls.length ≤ i) : sliceLoop urls bs fuel i = [] := by
  cases fuel with
  | zero => rfl
  | succ f => simp [sliceLoop, Nat.not_lt.mpr h]

theorem sliceLoop_flatten {urls : List String} {bs : Nat} (hbs : 1 ≤ bs) :
    ∀ (fuel i : Nat), urls.length - i ≤ fuel →
      (sliceLoop urls bs fuel i).flatten = urls.drop i := by
  intro fuel
  induction fuel with
  | zero =>
    intro i h
    have hi : urls.length ≤ i := by omega
    simp [sliceLoop, List.drop_eq_nil_of_le hi]
  | succ f ih =>
    intro i h
    by_cases hi : i < urls.length
    · have hrec := ih (i + bs) (by omega)
      simp only [sliceLoop, if_pos hi, List.flatten_cons, hrec]
      rw [← List.drop_drop, List.take_append_drop]
    · simp [sliceLoop, hi, List.drop_eq_nil_of_le (Nat.not_lt.mp hi)]

theorem sliceLoop_length_eq {urls : List String} {bs : Nat} (hbs : 1 ≤ bs) :
    ∀ (fuel i : Nat), urls.length - i ≤ fuel → i < urls.length →
      (sliceLoop urls bs fuel i).length =
        (urls.length - i + bs - 1) / bs := by
  intro fuel
  induction fuel with
  | zero => intro i h hi; omega
  | succ f ih =>
    intro i h hi
    simp only [sliceLoop, if_pos hi, List.length_cons]
    by_cases hnext : i + bs < urls.length
    · rw [ih (i + bs) (by omega) hnext]
      have hm : 0 < urls.length - i := by omega
      have h9 : urls.length - (i + bs) + bs - 1 = urls.length - i - 1 := by omega
      have h8 : urls.length - i + bs - 1 = (urls.length - i - 1) + bs := by omega
      rw [h9, h8, Nat.add_div_right _ (by omega)]
    · rw [sliceLoop_eq_nil f (by omega)]
      have hlow : 1 * bs ≤ urls.length - i + bs - 1 := by omega
      have hhigh : urls.length - i + bs - 1 < 2 * bs := by omega
      have hd1 := (Nat.le_div_iff_mul_le (x := 1) (y := urls.length - i + bs - 1)
        (by omega : 0 < bs)).mpr hlow
      have hd2 := (Nat.div_lt_iff_lt_mul (x := urls.length - i + bs - 1) (y := 2)
        (by omega : 0 < bs)).mpr hhigh
      simp only [List.length_nil]
      omega

theorem sliceLoop_batch_bounds (urls : List String) {bs : Nat} (hbs : 1 ≤ bs) :
    ∀ (fuel i : Nat), ∀ b ∈ sliceLoop urls bs fuel i,
      b ≠ [] ∧ b.length ≤ bs := by
  intro fuel
  induction fuel with
  | zero => intro i b hb; simp [sliceLoop] at hb
  | succ f ih =>
    intro i b hb
    by_cases hi : i < urls.length
    · simp only [sliceLoop, if_pos hi, List.mem_cons] at hb
      rcases hb with rfl | hb
      · constructor
        · have : ((urls.drop i).take bs).length = min bs (urls.length - i) := by
            rw [List.length_take, List.length_drop]
          intro hnil
          rw [hnil] at this
          simp only [List.length_nil] at this
          omega
        · have := List.length_take (l := urls.drop i) (i := bs)
          omega
      · exact ih (i + bs) b hb
    · simp [sliceLoop, hi] at hb

theorem sliceLoop_sizes_chain (urls : List String) (bs : Nat) :
    ∀ (fuel i : Nat),
      List.Chain' (fun a b => b.length ≤ a.length) (sliceLoop urls bs fuel i) := by
  intro fuel
  induction fuel with
  | zero => intro i; simp [sliceLoop]
  | succ f ih =>
    intro i
    by_cases hi : i < urls.length
    · simp only [sliceLoop, if_pos hi]
      rw [List.chain'_cons']
      refine ⟨?_, ih (i + bs)⟩
      intro y hy
      cases f with
      | zero => simp [sliceLoop] at hy
      | succ f' =>
        by_cases hnext : i + bs < urls.length
        · simp only [sliceLoop, if_pos hnext, List.head?_cons, Option.mem_def,
            Option.some.injEq] at hy
          subst hy
          rw [List.length_take, List.length_take, List.length_drop,
            List.length_drop]
          omega
        · simp [sliceLoop, hnext] at hy
    · simp [sliceLoop, hi]

theorem sliceLoop_congr {urls : List String} {bs : Nat} (hbs : 1 ≤ bs) :
    ∀ (fuel₁ fuel₂ i : Nat), urls.length - i ≤ fuel₁ →
      urls.length - i ≤ fuel₂ →
      sliceLoop urls bs fuel₁ i = sliceLoop urls bs fuel₂ i := by
  intro fuel₁
  induction fuel₁ with
  | zero =>
    intro fuel₂ i h1 h2
    rw [sliceLoop_eq_nil 0 (by omega), sliceLoop_eq_nil fuel₂ (by omega)]
  | succ f ih =>
    intro fuel₂ i h1 h2
    by_cases hi : i < urls.length
    · cases fuel₂ with
      | zero => omega
      | succ f₂ =>
        simp only [sliceLoop, if_pos hi]
        rw [ih f₂ (i + bs) (by omega) (by omega)]
    · rw [sliceLoop_eq_nil _ (Nat.not_lt.mp hi),
        sliceLoop_eq_nil _ (Nat.not_lt.mp hi)]

/-! ## Claim theorems: partitioner -/

/-- C1: for every url list, the batches produced by `processBatch`,
concatenated in order, equal the original url sequence exactly: no
element is lost, none is duplicated, and order is preserved within and
across batches. -/
theorem processBatch_flatten_eq (urls : List String) :
    (processBatch urls).flatten = urls := by
  by_cases h : urls = []
  · subst h; rfl
  · have hn : 0 < urls.length := List.length_pos.mpr h
    simpa [processBatch] using
      sliceLoop_flatten (batchSizeOf_pos hn) urls.length 0 (by omega)

/-- C2, counterexample: at `n = 11` the partitioner produces six
non-empty batches, not `min(11, 10) = 10` as claimed. -/
theorem processBatch_count_counterexample :
    urls11.length = 11 ∧
    ((processBatch urls11).filter (fun b => !b.isEmpty)).length = 6 ∧
    ((processBatch urls11).filter (fun b => !b.isEmpty)).length ≠
      min urls11.length 10 := by decide

/-- C2, amended: for a non-empty url list of length `n` and
`bs = ceil(n/10)`, the partitioner produces exactly `ceil(n/bs)`
batches, all non-empty, every batch has size at most `bs`, batch sizes
are non-increasing, the batch count is at most `min(n, 10)` (it can be
strictly less than 10 for `n > 10`), and for `n ≤ 10` it is exactly
`n = min(n, 10)`. -/
theorem processBatch_shape (urls : List String) (h : urls ≠ []) :
    ((processBatch urls).filter (fun b => !b.isEmpty)).length =
      (urls.length + batchSizeOf urls.length - 1) / batchSizeOf urls.length ∧
    (∀ b ∈ processBatch urls, b.length ≤ batchSizeOf urls.length) ∧
    List.Chain' (fun a b => b.length ≤ a.length) (processBatch urls) ∧
    (urls.length + batchSizeOf urls.length - 1) / batchSizeOf urls.length ≤
      min urls.length 10 ∧
    (urls.length ≤ 10 → (processBatch urls).length = urls.length) := by
  have hn : 0 < urls.length := List.length_pos.mpr h
  have hbs : 1 ≤ batchSizeOf urls.length := batchSizeOf_pos hn
  have hbounds := sliceLoop_batch_bounds urls hbs urls.length 0
  have hfilter : (processBatch urls).filter (fun b => !b.isEmpty) =
      processBatch urls := by
    rw [List.filter_eq_self]
    intro b hb
    have := (hbounds b hb).1
    simp [List.isEmpty_iff, this]
  have hlen : (processBatch urls).length =
      (urls.length + batchSizeOf urls.length - 1) / batchSizeOf urls.length := by
    have := sliceLoop_length_eq hbs urls.length 0 (by omega) hn
    simpa [processBatch] using this
  refine ⟨by rw [hfilter, hlen], fun b hb => (hbounds b hb).2,
    sliceLoop_sizes_chain urls (batchSizeOf urls.length) urls.length 0, ?_, ?_⟩
  · have hten := batchSizeOf_mul_ten (n := urls.length)
    have hle10 : (urls.length + batchSizeOf urls.length - 1) /
        batchSizeOf urls.length < 11 := by
      rw [Nat.div_lt_iff_lt_mul (by omega)]
      omega
    have hlen' : (urls.length + batchSizeOf urls.length - 1) /
        batchSizeOf urls.length < urls.length + 1 := by
      rw [Nat.div_lt_iff_lt_mul (by omega)]
      have : urls.length ≤ urls.length * batchSizeOf urls.length :=
        Nat.le_mul_of_pos_right _ (by omega)
      calc urls.length + batchSizeOf urls.length - 1
          ≤ urls.length * batchSizeOf urls.length + batchSizeOf urls.length - 1 := by
            omega
        _ < (urls.length + 1) * batchSizeOf urls.length := by
            rw [Nat.add_mul]
            omega
    omega
  · intro hsmall
    have hone : batchSizeOf urls.length = 1 := by
      unfold batchSizeOf
      have h1 := Nat.div_add_mod (urls.length + 9) 10
      have h2 : (urls.length + 9) % 10 < 10 := Nat.mod_lt _ (by norm_num)
      omega
    rw [hlen, hone]
    omega

/-- C10: the loop of `processBatch` terminates on every input.  The
result of running the loop with any iteration budget of at least
`urls.length` is the same (the loop index strictly increases by
`batchSize ≥ 1` per iteration whenever the list is non-empty, so at
most `urls.length` iterations ever run), and the stride is zero exactly
for the empty input, where the loop body never executes. -/
theorem processBatch_terminates (urls : List String) (fuel : Nat)
    (hfuel : urls.length ≤ fuel) :
    sliceLoop urls (batchSizeOf urls.length) fuel 0 = processBatch urls ∧
    (batchSizeOf urls.length = 0 ↔ urls = []) := by
  constructor
  · by_cases h : urls = []
    · subst h
      rw [sliceLoop_eq_nil fuel (by simp)]
      rfl
    · have hn : 0 < urls.length := List.length_pos.mpr h
      exact sliceLoop_congr (batchSizeOf_pos hn) fuel urls.length 0
        (by omega) (by omega)
  · constructor
    · intro h0
      by_contra hne
      have := batchSizeOf_pos (List.length_pos.mpr hne)
      omega
    · intro h
      subst h
      rfl

/-- C10, witness: the termination statement applied at a concrete list
and budget. -/
theorem processBatch_terminates_witness :
    urls11.length ≤ 30 ∧
    (sliceLoop urls11 (batchSizeOf urls11.length) 30 0 = processBatch urls11 ∧
      (batchSizeOf urls11.length = 0 ↔ urls11 = [])) :=
  ⟨by decide, processBatch_terminates urls11 30 (by decide)⟩

/-- C2, witness: the amended batch-shape statement applied at a
concrete non-empty list. -/
theorem processBatch_shape_witness :
    urls11 ≠ [] ∧
    (((processBatch urls11).filter (fun b => !b.isEmpty)).length =
      (urls11.length + batchSizeOf urls11.length - 1) /
        batchSizeOf urls11.length ∧
    (∀ b ∈ processBatch urls11, b.length ≤ batchSizeOf urls11.length) ∧
    List.Chain' (fun a b => b.length ≤ a.length) (processBatch urls11) ∧
    (urls11.length + batchSizeOf urls11.length - 1) /
        batchSizeOf urls11.length ≤ min urls11.length 10 ∧
    (urls11.length ≤ 10 → (processBatch urls11).length = urls11.length)) :=
  ⟨by decide, processBatch_shape urls11 (by decide)⟩

/-! ## Aggregator lemmas -/

/-- `Map.prototype.has`: some entry of the table has the given key. -/
def hasKey (m : List (String × Nat)) (k : String) : Bool :=
  m.any fun p => p.1 == k

/-- `Map.prototype.get` with default 0: the count stored for a key. -/
def getCount (m : List (String × Nat)) (k : String) : Nat :=
  match m.find? fun p => p.1 == k with
  | some p => p.2
  | none => 0

theorem bump_of_absent {m : List (String × Nat)} {t : String}
    (h : hasKey m t = false) : bump m t = m ++ [(t, 1)] := by
  unfold bump
  rw [show (m.any fun p => p.1 == t) = false from h]
  simp

theorem getCount_map_update_ne {t k : String} (hk : k ≠ t) :
    ∀ m : List (String × Nat),
      getCount (m.map fun p => if p.1 == t then (p.1, p.2 + 1) else p) k =
        getCount m k := by
  intro m
  induction m with
  | nil => rfl
  | cons p ps ih =>
    obtain ⟨a, c⟩ := p
    by_cases hat : a = t
    · subst hat
      have h2 : (a == k) = false := beq_eq_false_iff_ne.mpr fun h => hk h.symm
      simp [getCount, List.find?, h2] at ih ⊢
      exact ih
    · by_cases hak : a = k
      · subst hak
        simp [getCount, List.find?, beq_eq_false_iff_ne.mpr hat]
      · simp [getCount, List.find?, beq_eq_false_iff_ne.mpr hat,
          beq_eq_false_iff_ne.mpr hak] at ih ⊢
        exact ih

theorem getCount_map_update_self {t : String} :
    ∀ m : List (String × Nat), hasKey m t = true →
      getCount (m.map fun p => if p.1 == t then (p.1, p.2 + 1) else p) t =
        getCount m t + 1 := by
  intro m
  induction m with
  | nil => intro h; simp [hasKey] at h
  | cons p ps ih =>
    intro h
    obtain ⟨a, c⟩ := p
    by_cases hat : a = t
    · subst hat
      simp [getCount, List.find?]
    · have hf : (a == t) = false := beq_eq_false_iff_ne.mpr hat
      have htail : hasKey ps t = true := by
        simp only [hasKey, List.any_cons, hf, Bool.false_or] at h
        exact h
      simp [getCount, List.find?, hf] at ih ⊢
      exact ih htail

theorem getCount_of_absent {t : String} :
    ∀ m : List (String × Nat), hasKey m t = false → getCount m t = 0 := by
  intro m
  induction m with
  | nil => intro _; rfl
  | cons p ps ih =>
    intro h
    simp only [hasKey, List.any_cons, Bool.or_eq_false_iff] at h
    simp only [getCount, List.find?, h.1]
    exact ih (by simp [hasKey, h.2])

theorem getCount_append_single_self {t : String} :
    ∀ m : List (String × Nat), hasKey m t = false →
      getCount (m ++ [(t, 1)]) t = 1 := by
  intro m
  induction m with
  | nil => intro _; simp [getCount, List.find?]
  | cons p ps ih =>
    intro h
    simp only [hasKey, List.any_cons, Bool.or_eq_false_iff] at h
    simp only [List.cons_append, getCount, List.find?, h.1]
    exact ih (by simp [hasKey, h.2])

theorem getCount_append_single_ne {t k : String} (hk : k ≠ t) :
    ∀ m : List (String × Nat), getCount (m ++ [(t, 1)]) k = getCount m k := by
  intro m
  induction m with
  | nil =>
    have : (t == k) = false := beq_eq_false_iff_ne.mpr fun h => hk h.symm
    simp [getCount, List.find?, this]
  | cons p ps ih =>
    obtain ⟨a, c⟩ := p
    by_cases hak : a = k
    · subst hak
      simp [getCount, List.find?]
    · simp only [List.cons_append, getCount, List.find?,
        beq_eq_false_iff_ne.mpr hak] at ih ⊢
      exact ih

theorem getCount_bump (m : List (String × Nat)) (t k : String) :
    getCount (bump m t) k = getCount m k + (if k = t then 1 else 0) := by
  by_cases hmem : hasKey m t
  · have hb : bump m t = m.map fun p => if p.1 == t then (p.1, p.2 + 1) else p := by
      unfold bump
      rw [show (m.any fun p => p.1 == t) = true from hmem]
      simp
    rw [hb]
    by_cases hk : k = t
    · subst hk
      rw [getCount_map_update_self m hmem, if_pos rfl]
    · rw [getCount_map_update_ne hk m, if_neg hk]
      omega
  · have hb := bump_of_absent (m := m) (t := t) (by simpa using hmem)
    rw [hb]
    by_cases hk : k = t
    · subst hk
      rw [getCount_append_single_self m (by simpa using hmem),
        getCount_of_absent m (by simpa using hmem), if_pos rfl]
    · rw [getCount_append_single_ne hk m, if_neg hk]
      omega

theorem getCount_countAll (l : List String) :
    ∀ (m : List (String × Nat)) (k : String),
      getCount (countAll m l) k = getCount m k + l.count k := by
  induction l with
  | nil => intro m k; simp [countAll]
  | cons t ts ih =>
    intro m k
    have : countAll m (t :: ts) = countAll (bump m t) ts := rfl
    rw [this, ih, getCount_bump, List.count_cons]
    by_cases hk : k = t
    · subst hk
      simp only [if_pos rfl, beq_self_eq_true, if_true]
      omega
    · rw [if_neg hk, if_neg (by simpa using fun h => hk h.symm)]
      omega

theorem foldl_mapStep_fst :
    ∀ (data : List PostResult) (acc : List (String × Nat) × List (String × Nat)),
      (data.foldl mapStep acc).1 =
        countAll acc.1 ((data.map PostResult.hashtags).flatten) := by
  intro data
  induction data with
  | nil => intro acc; rfl
  | cons e rest ih =>
    intro acc
    rw [List.foldl_cons, ih, List.map_cons, List.flatten_cons]
    show countAll (countAll acc.1 e.hashtags) _ = _
    unfold countAll
    rw [List.foldl_append]

theorem foldl_mapStep_snd :
    ∀ (data : List PostResult) (acc : List (String × Nat) × List (String × Nat)),
      (data.foldl mapStep acc).2 =
        countAll acc.2 ((data.map PostResult.creators).flatten) := by
  intro data
  induction data with
  | nil => intro acc; rfl
  | cons e rest ih =>
    intro acc
    rw [List.foldl_cons, ih, List.map_cons, List.flatten_cons]
    show countAll (countAll acc.2 e.creators) _ = _
    unfold countAll
    rw [List.foldl_append]

theorem getCount_tagTable (data : List PostResult) (k : String) :
    getCount (tagTable data) k =
      ((data.map PostResult.hashtags).flatten).count k := by
  unfold tagTable
  rw [foldl_mapStep_fst data ([], []), getCount_countAll]
  simp [getCount, List.find?]

theorem getCount_creatorTable (data : List PostResult) (k : String) :
    getCount (creatorTable data) k =
      ((data.map PostResult.creators).flatten).count k := by
  unfold creatorTable
  rw [foldl_mapStep_snd data ([], []), getCount_countAll]
  simp [getCount, List.find?]

theorem countAll_of_nodup :
    ∀ (l : List String) (m : List (String × Nat)), l.Nodup →
      (∀ t ∈ l, hasKey m t = false) →
      countAll m l = m ++ l.map (fun t => (t, 1)) := by
  intro l
  induction l with
  | nil => intro m _ _; simp [countAll]
  | cons t ts ih =>
    intro m hnd habs
    have hstep : countAll m (t :: ts) = countAll (bump m t) ts := rfl
    rw [hstep, bump_of_absent (habs t (List.mem_cons_self t ts))]
    have hndts : ts.Nodup := (List.nodup_cons.mp hnd).2
    have htne : t ∉ ts := (List.nodup_cons.mp hnd).1
    have habs' : ∀ u ∈ ts, hasKey (m ++ [(t, 1)]) u = false := by
      intro u hu
      have h1 : hasKey m u = false := habs u (List.mem_cons_of_mem t hu)
      have h2 : (t == u) = false := by
        simp only [beq_eq_false_iff_ne]
        intro hc
        exact htne (hc ▸ hu)
      simp [hasKey, List.any_append, h2] at h1 ⊢
      simpa [hasKey] using h1
    rw [ih (m ++ [(t, 1)]) hndts habs']
    simp

theorem take_sum_ones :
    ∀ (l : List (String × Nat)) (k : Nat), (∀ x ∈ l, x.2 = 1) →
      ((l.take k).map Prod.snd).sum = min l.length k := by
  intro l
  induction l with
  | nil => intro k _; simp
  | cons x xs ih =>
    intro k hall
    cases k with
    | zero => simp
    | succ k' =>
      have hx : x.2 = 1 := hall x (List.mem_cons_self x xs)
      have hxs : ∀ y ∈ xs, y.2 = 1 := fun y hy =>
        hall y (List.mem_cons_of_mem x hy)
      simp only [List.take_succ_cons, List.map_cons, List.sum_cons, hx,
        ih k' hxs, List.length_cons]
      omega

/-! ## Claim theorems: aggregator -/

/-- C3, counterexample: one PostResult with six distinct tags (so all
tag sets are pairwise disjoint and no result repeats a tag) makes the
sum of the counts in the returned output 5, while the total number of
(post, tag) pairs is 6: the returned output is truncated to the top
five entries. -/
theorem mapOccurences_sum_counterexample :
    ((sixTagData.map PostResult.hashtags).flatten).Nodup ∧
    (((mapOccurences sixTagData).1).map Prod.snd).sum = 5 ∧
    ((sixTagData.map PostResult.hashtags).flatten).length = 6 ∧
    (((mapOccurences sixTagData).1).map Prod.snd).sum ≠
      ((sixTagData.map PostResult.hashtags).flatten).length := by
  decide

/-- C3, amended: for a sequence of PostResults whose tag sets are
pairwise disjoint (and no result repeats a tag internally), the sum of
the counts appearing in the tag portion of the returned output equals
`min(total number of (post, tag) pairs, 5)` — the aggregator truncates
the ranked table to its top five entries, so the total is recovered
only when at most five distinct tags occur. -/
theorem mapOccurences_disjoint_sum (data : List PostResult)
    (h : ((data.map PostResult.hashtags).flatten).Nodup) :
    (((mapOccurences data).1).map Prod.snd).sum =
      min ((data.map PostResult.hashtags).flatten).length 5 := by
  have htbl : tagTable data =
      ((data.map PostResult.hashtags).flatten).map (fun t => (t, 1)) := by
    unfold tagTable
    rw [foldl_mapStep_fst data ([], [])]
    have := countAll_of_nodup ((data.map PostResult.hashtags).flatten) [] h
      (fun t _ => rfl)
    simpa using this
  have hones : ∀ x ∈ sortDesc (tagTable data), x.2 = 1 := by
    intro x hx
    have hxmem : x ∈ tagTable data := by
      have := List.perm_insertionSort
        (fun a b : String × Nat => b.2 ≤ a.2) (tagTable data)
      exact this.mem_iff.mp hx
    rw [htbl] at hxmem
    obtain ⟨t, _, rfl⟩ := List.mem_map.mp hxmem
    rfl
  have hsum := take_sum_ones (sortDesc (tagTable data)) 5 hones
  have hlen : (sortDesc (tagTable data)).length =
      ((data.map PostResult.hashtags).flatten).length := by
    have hp := List.perm_insertionSort
      (fun a b : String × Nat => b.2 ≤ a.2) (tagTable data)
    rw [show (sortDesc (tagTable data)).length =
        (tagTable data).length from hp.length_eq, htbl, List.length_map]
  calc (((mapOccurences data).1).map Prod.snd).sum
      = (((sortDesc (tagTable data)).take 5).map Prod.snd).sum := rfl
    _ = min (sortDesc (tagTable data)).length 5 := hsum
    _ = min ((data.map PostResult.hashtags).flatten).length 5 := by rw [hlen]

/-- C3, witness: the amended sum statement applied to the concrete
six-tag input. -/
theorem mapOccurences_disjoint_sum_witness :
    ((sixTagData.map PostResult.hashtags).flatten).Nodup ∧
    (((mapOccurences sixTagData).1).map Prod.snd).sum =
      min ((sixTagData.map PostResult.hashtags).flatten).length 5 :=
  ⟨by decide, mapOccurences_disjoint_sum sixTagData (by decide)⟩

/-- C4: folding any permutation of the PostResult sequence through the
aggregator yields the same final entity-to-count mapping, both for tags
(the `hashtagCounts` table) and for authors (the `creatorCounts`
table), read as mappings via `getCount`. -/
theorem aggregate_perm_counts (data data' : List PostResult)
    (h : data.Perm data') :
    (∀ k, getCount (tagTable data) k = getCount (tagTable data') k) ∧
    (∀ k, getCount (creatorTable data) k = getCount (creatorTable data') k) := by
  constructor
  · intro k
    rw [getCount_tagTable, getCount_tagTable, List.count_flatten,
      List.count_flatten]
    exact ((h.map PostResult.hashtags).map (List.count k)).sum_eq
  · intro k
    rw [getCount_creatorTable, getCount_creatorTable, List.count_flatten,
      List.count_flatten]
    exact ((h.map PostResult.creators).map (List.count k)).sum_eq

/-- C4, witness: the fold-order statement applied to a concrete
two-element sequence and its swap. -/
theorem aggregate_perm_counts_witness :
    ([resultB, resultC].Perm [resultC, resultB]) ∧
    ((∀ k, getCount (tagTable [resultB, resultC]) k =
        getCount (tagTable [resultC, resultB]) k) ∧
     (∀ k, getCount (creatorTable [resultB, resultC]) k =
        getCount (creatorTable [resultC, resultB]) k)) :=
  ⟨by decide, aggregate_perm_counts [resultB, resultC] [resultC, resultB]
    (by decide)⟩

/-! ## Endpoint lemmas -/

theorem dispatchAll_error (worker : List String → Except String PostResult) :
    ∀ (bs : List (List String)),
      (∃ b ∈ bs, ∃ e, worker b = Except.error e) →
      ∃ e, dispatchAll worker bs = Except.error e := by
  intro bs
  induction bs with
  | nil => rintro ⟨b, hb, _⟩; exact absurd hb (List.not_mem_nil b)
  | cons b rest ih =>
    rintro ⟨b', hb', e', he'⟩
    rcases List.mem_cons.mp hb' with rfl | hmem
    · exact ⟨e', by simp [dispatchAll, compileHashtags, he']⟩
    · cases hw : worker b with
      | error e => exact ⟨e, by simp [dispatchAll, compileHashtags, hw]⟩
      | ok r =>
        obtain ⟨e, he⟩ := ih ⟨b', hmem, e', he'⟩
        exact ⟨e, by simp [dispatchAll, compileHashtags, hw, he]⟩

theorem PUT_status_of_valid (expected : String)
    (worker : List String → Except String PostResult) (request : JsObject)
    (hk : checkKey expected request = true)
    (hf : validateFormatting request = true)
    (hc : validateContent request = true) :
    (PUT expected worker request).status = 200 ∨
      (PUT expected worker request).status = 500 := by
  simp only [PUT, hk, hf, hc, if_true]
  cases hd : dispatchAll worker (processBatch (getUrls request)) with
  | error e => simp [hd]
  | ok rs => simp [hd]

/-! ## Claim theorems: endpoint -/

/-- C5: for a valid authorized request, if any single batch dispatch
fails, `PUT` answers with status 500 and the fixed failure message: no
aggregate data from batches that succeeded appears in the response. -/
theorem PUT_batch_failure (expected : String)
    (worker : List String → Except String PostResult) (request : JsObject)
    (hk : checkKey expected request = true)
    (hf : validateFormatting request = true)
    (hc : validateContent request = true)
    (hfail : ∃ b ∈ processBatch (getUrls request), ∃ e,
      worker b = Except.error e) :
    PUT expected worker request = ⟨500, Body.failedToGetHashtags⟩ := by
  obtain ⟨e, he⟩ := dispatchAll_error worker (processBatch (getUrls request)) hfail
  simp [PUT, hk, hf, hc, he]

/-- C5, witness: a concrete authorized request with a failing worker
yields exactly the 500 response. -/
theorem PUT_batch_failure_witness :
    (checkKey "secret" okReq = true ∧ validateFormatting okReq = true ∧
      validateContent okReq = true ∧
      (∃ b ∈ processBatch (getUrls okReq), ∃ e,
        failWorker b = Except.error e)) ∧
    PUT "secret" failWorker okReq = ⟨500, Body.failedToGetHashtags⟩ :=
  ⟨⟨by decide, by decide, by decide, ⟨[url1], by decide, "boom", rfl⟩⟩,
    PUT_batch_failure "secret" failWorker okReq (by decide) (by decide)
      (by decide) ⟨[url1], by decide, "boom", rfl⟩⟩

/-- C6, counterexample: a payload carrying the correct `api_key` value
and a well-formed `urls` array is still rejected with a 400 when the
`urls` property is enumerated before `api_key`: `checkKey` demands that
the first key be `api_key`, so property order matters. -/
theorem PUT_keyOrder_counterexample :
    (PUT "secret" okWorker swappedReq).status = 400 ∧
    jsGet swappedReq "api_key" = some (JsValue.str "secret") ∧
    jsGet swappedReq "urls" = some (JsValue.arr [JsValue.str url1]) ∧
    jsStartsWith url1 tiktokPre = true :=
  ⟨by decide, rfl, rfl, by decide⟩

/-- C6, amended: a payload whose properties are exactly `api_key` (with
the expected value) followed by `urls` (an array of strings all starting
with the TikTok literal) is never rejected with a 400; if the two
properties appear in the other order the request is rejected (see the
counterexample). -/
theorem PUT_wellFormed_not400 (expected : String)
    (worker : List String → Except String PostResult) (urls : List String)
    (h : ∀ u ∈ urls, jsStartsWith u tiktokPre = true) :
    (PUT expected worker
      [("api_key", JsValue.str expected),
       ("urls", JsValue.arr (urls.map JsValue.str))]).status ≠ 400 := by
  have hk : checkKey expected
      [("api_key", JsValue.str expected),
       ("urls", JsValue.arr (urls.map JsValue.str))] = true := by
    simp [checkKey, jsGet, List.find?, jsLooseEqStr]
  have hf : validateFormatting
      [("api_key", JsValue.str expected),
       ("urls", JsValue.arr (urls.map JsValue.str))] = true := by
    simp [validateFormatting, jsGet, List.find?, List.all_map, Function.comp]
  have hc : validateContent
      [("api_key", JsValue.str expected),
       ("urls", JsValue.arr (urls.map JsValue.str))] = true := by
    simp [validateContent, jsGet, List.find?, List.all_map, Function.comp,
      List.all_eq_true]
    intro u hu
    exact h u hu
  rcases PUT_status_of_valid expected worker _ hk hf hc with h2 | h2 <;>
    omega

/-- C6, witness: the amended statement applied at a concrete payload. -/
theorem PUT_wellFormed_not400_witness :
    (∀ u ∈ [url1], jsStartsWith u tiktokPre = true) ∧
    (PUT "secret" okWorker
      [("api_key", JsValue.str "secret"),
       ("urls", JsValue.arr ([url1].map JsValue.str))]).status ≠ 400 :=
  ⟨by decide, PUT_wellFormed_not400 "secret" okWorker [url1] (by decide)⟩

/-- C7: an empty `urls` array is partitioned into zero batches, and the
endpoint answers a valid authorized request carrying it with a 200
success and empty ranked tag and creator arrays, not an error. -/
theorem PUT_empty_urls :
    processBatch [] = [] ∧
    ∀ (expected : String) (worker : List String → Except String PostResult),
      PUT expected worker
        [("api_key", JsValue.str expected), ("urls", JsValue.arr [])] =
        ⟨200, Body.results [] []⟩ := by
  refine ⟨rfl, ?_⟩
  intro expected worker
  have hk : checkKey expected
      [("api_key", JsValue.str expected), ("urls", JsValue.arr [])] = true := by
    simp [checkKey, jsGet, List.find?, jsLooseEqStr]
  simp [PUT, hk, validateFormatting, validateContent, jsGet, List.find?,
    getUrls, processBatch, batchSizeOf, sliceLoop, dispatchAll,
    mapOccurences, tagTable, creatorTable, mapStep, sortDesc]

/-- C9, counterexample: a request whose first property is `api_key`
holding the singleton array containing the expected key is accepted by
`checkKey`, although its value is not the expected key: the loose `!=`
of the source coerces the array to the string it contains, for every
secret.  So acceptance is not equivalent to the first property holding
a value equal to the expected key. -/
theorem checkKey_coercion_counterexample :
    checkKey "secret"
      [("api_key", JsValue.arr [JsValue.str "secret"]),
       ("urls", JsValue.arr [])] = true ∧
    JsValue.arr [JsValue.str "secret"] ≠ JsValue.str "secret" := by
  constructor
  · simp [checkKey, jsGet, List.find?, jsLooseEqStr, jsToStringList,
      jsToString]
  · exact fun h => JsValue.noConfusion h

/-- C9, amended: `checkKey` accepts exactly the requests whose first
enumerated property is `api_key` holding a value that compares loosely
equal (JS `==`) to the configured expected key — the expected string
itself or any value coercing to it, such as the singleton array
containing it, or a number whose numeral the key is; in particular a
request carrying a correct value under any position other than the
first is rejected. -/
theorem checkKey_accepts_iff (expected : String) (request : JsObject) :
    checkKey expected request = true ↔
      ∃ v rest, request = ("api_key", v) :: rest ∧
        jsLooseEqStr v expected = true := by
  cases request with
  | nil => simp [checkKey]
  | cons p rest =>
    obtain ⟨k, v⟩ := p
    by_cases hk : k = "api_key"
    · subst hk
      simp [checkKey, jsGet, List.find?]
    · have hkb : (k == "api_key") = false := beq_eq_false_iff_ne.mpr hk
      simp [checkKey, hkb, hk]
